import Mathlib

/-!
Verification development for the Entity Mention Linker (`entity_linker.py`).

The document text and all entity fields are modelled as `List Char`; offsets are
`Nat`; confidence values are exact rationals (`ℚ`), so the float literals
0.7, 0.8, 0.9, 1.0 of the source become the corresponding rationals.  The three
regular-expression shapes the source compiles — a word-bounded escaped literal
(optionally case-insensitive) and the word-bounded `module \s+ [Kk]eeper`
pattern — are modelled directly as matching functions on character lists, with
ASCII readings of `\w`, `\s`, `str.lower` and `re.IGNORECASE`.
-/

/-- Word characters recognised by the regex boundary assertion (ASCII model of `\w`). -/
def isWordChar (c : Char) : Bool := c.isAlphanum || c == '_'

/-- Whitespace characters (ASCII model of `\s` and of `str.split`). -/
def pyIsSpace (c : Char) : Bool :=
  c == ' ' || c == '\t' || c == '\n' || c == '\r' || c == Char.ofNat 11 || c == Char.ofNat 12

/-- Lower-case a character sequence (ASCII model of `str.lower`). -/
def lowerStr (l : List Char) : List Char := l.map Char.toLower

/-- The slice `doc[i:j]` for non-negative in-range indices. -/
def strSlice (doc : List Char) (i j : Nat) : List Char := (doc.drop i).take (j - i)

/-- Whether position `i` holds a word character (out of range counts as non-word). -/
def wordAt (doc : List Char) (i : Nat) : Bool :=
  match doc.get? i with
  | some c => isWordChar c
  | none => false

/-- The regex boundary assertion at position `i`: exactly one side is a word character. -/
def isBoundary (doc : List Char) (i : Nat) : Bool :=
  (if i = 0 then false else wordAt doc (i - 1)) != wordAt doc i

/-- The backtick character used by markdown inline-code spans. -/
def backtickChar : Char := Char.ofNat 96

/-- An entity from the graph, as in the source dataclass `Entity`. -/
structure Entity where
  entity_id : List Char
  entity_type : List Char
  name : List Char
  module : List Char
  aliases : List (List Char)
deriving DecidableEq

/-- A mention of an entity found in document text, as in the source dataclass `Mention`. -/
structure Mention where
  entity_id : List Char
  entity_name : List Char
  entity_type : List Char
  surface_form : List Char
  start_offset : Nat
  end_offset : Nat
  confidence : ℚ
  context : List Char
deriving DecidableEq

/-- Confidence score for a match, following `_calculate_confidence` of the source. -/
def calculate_confidence (entity_name matched_text : List Char) (in_code_block : Bool) : ℚ :=
  if matched_text = entity_name then 1
  else if lowerStr matched_text = lowerStr entity_name then
    (if in_code_block then 1 else mkRat 9 10)
  else if (lowerStr matched_text).isSuffixOf (lowerStr entity_name)
      || (lowerStr matched_text).isPrefixOf (lowerStr entity_name) then mkRat 7 10
  else mkRat 8 10

/-- Whether a position lies inside markdown code formatting, following
`_is_in_code_block` of the source: an odd count of backticks strictly before the
position, and at least one backtick at or after it. -/
def is_in_code_block (doc : List Char) (position : Nat) : Bool :=
  ((doc.take position).count backtickChar) % 2 == 1 && (doc.drop position).contains backtickChar

/-- The regular-expression shapes compiled by `extract_entity_mentions`:
a word-bounded escaped literal (with or without `re.IGNORECASE`), and the
word-bounded `module \s+ [Kk]eeper` contextual pattern. -/
inductive Pat where
  | lit (s : List Char) (ci : Bool)
  | modKeeper (m : List Char)
deriving DecidableEq

/-- Whether the word-bounded literal `s` matches at position `i` (the match then
spans `[i, i + s.length)`); `ci` selects case-insensitive comparison. -/
def litMatchAt (doc : List Char) (i : Nat) (s : List Char) (ci : Bool) : Bool :=
  decide (i + s.length ≤ doc.length) &&
  (if ci then lowerStr (strSlice doc i (i + s.length)) == lowerStr s
   else strSlice doc i (i + s.length) == s) &&
  isBoundary doc i && isBoundary doc (i + s.length)

/-- Characters accepted by the `[Kk]` bracket of the keeper pattern. -/
def isKk (c : Char) : Bool := c == 'K' || c == 'k'

/-- Whether the suffix `[Kk]eeper\b` of the keeper pattern matches at position `p`. -/
def keeperAt (doc : List Char) (p : Nat) : Bool :=
  decide (p + 6 ≤ doc.length) &&
  (match doc.get? p with | some c => isKk c | none => false) &&
  (strSlice doc (p + 1) (p + 6) == ['e', 'e', 'p', 'e', 'r']) &&
  isBoundary doc (p + 6)

/-- Length of the maximal whitespace run starting at position `j` (the greedy
`\s+` of the keeper pattern; greediness is exact here because no whitespace
character is `K` or `k`, so the regex never backtracks into the run). -/
def wsRun (doc : List Char) (j : Nat) : Nat := ((doc.drop j).takeWhile pyIsSpace).length

/-- Deterministic match of a pattern at a position, returning the end offset.
Each pattern shape has at most one match at a given start position, so this is
exactly what the regex engine finds when anchored there. -/
def matchAt (doc : List Char) (i : Nat) : Pat → Option Nat
  | .lit s ci => if litMatchAt doc i s ci then some (i + s.length) else none
  | .modKeeper m =>
    if (strSlice doc i (i + m.length) == m) && decide (i + m.length ≤ doc.length)
        && isBoundary doc i then
      let k := wsRun doc (i + m.length)
      if decide (1 ≤ k) && keeperAt doc (i + m.length + k) then
        some (i + m.length + k + 6)
      else none
    else none

/-- Left-to-right scan of `re.finditer`: at each position try the pattern; on a
match, record the span and resume at its end.  The fuel bounds the number of
scan steps; `doc.length + 1` steps always suffice because every step advances
the position by at least one. -/
def findIterGo (doc : List Char) (pat : Pat) : Nat → Nat → List (Nat × Nat)
  | 0, _ => []
  | fuel + 1, i =>
    if i ≤ doc.length then
      match matchAt doc i pat with
      | some e => (i, e) :: findIterGo doc pat fuel (max e (i + 1))
      | none => findIterGo doc pat fuel (i + 1)
    else []

/-- All matches of a pattern over the document, as `re.finditer` yields them. -/
def findIter (doc : List Char) (pat : Pat) : List (Nat × Nat) :=
  findIterGo doc pat (doc.length + 1) 0

/-- Configuration settings read by `extract_entity_mentions`.  The source reads
them out of an optional dict with defaults `min_confidence = 0.0` and
`context_chars = 50`; `context_chars` is modelled as an integer so that negative
values behave as in Python. -/
structure Config where
  min_confidence : ℚ
  context_chars : Int

/-- The configuration obtained when the caller passes no settings. -/
def defaultConfig : Config := ⟨0, 50⟩

/-- Resolution of one Python slice index against a list of length `len`:
negative indices count from the end, and both are clamped into range. -/
def pyIndex (len : Nat) (i : Int) : Nat :=
  if i < 0 then (len + i).toNat else min len i.toNat

/-- Python slice `l[a:b]` with possibly negative indices. -/
def pySlice (l : List Char) (a b : Int) : List Char :=
  (l.drop (pyIndex l.length a)).take (pyIndex l.length b - pyIndex l.length a)

/-- Maximal runs of non-whitespace characters, as produced by `str.split()`.
The fuel is consumed one character per step, so `l.length` always suffices. -/
def pyWordsGo : Nat → List Char → List (List Char)
  | 0, _ => []
  | _, [] => []
  | fuel + 1, c :: cs =>
    if pyIsSpace c then pyWordsGo fuel cs
    else (c :: cs.takeWhile (fun d => !pyIsSpace d)) ::
      pyWordsGo fuel (cs.dropWhile (fun d => !pyIsSpace d))

/-- The whitespace-separated words of a character sequence (`str.split()`). -/
def pyWords (l : List Char) : List (List Char) := pyWordsGo l.length l

/-- Collapse whitespace runs to single spaces: the source's
`' '.join(context.split())`. -/
def collapseWs (l : List Char) : List Char := List.intercalate [' '] (pyWords l)

/-- Surrounding context for a mention, following `_extract_context` of the source. -/
def extract_context (doc_text : List Char) (s e : Nat) (context_chars : Int) : List Char :=
  collapseWs (pySlice doc_text (max 0 ((s : Int) - context_chars))
    (min (doc_text.length : Int) ((e : Int) + context_chars)))

/-- A candidate match produced by one of the three phases: the entity it is
for, its span, and the confidence the phase assigns it (`none` marks the
Phase 3 candidates discarded for being byte-for-byte equal to the name). -/
structure Cand where
  ent : Entity
  start : Nat
  stop : Nat
  conf : Option ℚ
deriving DecidableEq

/-- Phase 1 keeper candidates of one entity: the `module \s+ [Kk]eeper`
contextual pattern, guarded as in the source by `entity_type == "Keeper"` and a
non-empty module, with fixed confidence 0.8. -/
def keeperCandsOf (doc : List Char) (ent : Entity) : List Cand :=
  if ent.entity_type = "Keeper".data ∧ ent.module ≠ [] then
    (findIter doc (Pat.modKeeper ent.module)).map (fun p => ⟨ent, p.1, p.2, some (mkRat 8 10)⟩)
  else []

/-- Phase 1 alias candidates of one entity: each alias longer than three
characters, matched case-insensitively with word boundaries, with fixed
confidence 0.8; aliases are scanned in catalog order. -/
def aliasCandsOf (doc : List Char) (ent : Entity) : List Cand :=
  (ent.aliases.filter (fun al => 3 < al.length)).flatMap
    (fun al => (findIter doc (Pat.lit al true)).map (fun p => ⟨ent, p.1, p.2, some (mkRat 8 10)⟩))

/-- Phase 1 of the matcher over the whole catalog: for each entity, first the
keeper pattern, then the alias patterns. -/
def phase1Cands (doc : List Char) (es : List Entity) : List Cand :=
  es.flatMap (fun ent => keeperCandsOf doc ent ++ aliasCandsOf doc ent)

/-- Phase 2 of the matcher: the exact, case-sensitive entity name with word
boundaries, for names longer than three characters; the confidence is what
`_calculate_confidence` yields on the matched text. -/
def phase2Cands (doc : List Char) (es : List Entity) : List Cand :=
  es.flatMap (fun ent =>
    if 3 < ent.name.length then
      (findIter doc (Pat.lit ent.name false)).map (fun p =>
        ⟨ent, p.1, p.2,
          some (calculate_confidence ent.name (strSlice doc p.1 p.2)
            (is_in_code_block doc p.1))⟩)
    else [])

/-- Phase 3 of the matcher: the entity name matched case-insensitively, for
names longer than three characters; a match whose text equals the name
byte-for-byte is dropped (already covered by Phase 2), the rest are scored by
`_calculate_confidence`. -/
def phase3Cands (doc : List Char) (es : List Entity) : List Cand :=
  es.flatMap (fun ent =>
    if 3 < ent.name.length then
      (findIter doc (Pat.lit ent.name true)).map (fun p =>
        if strSlice doc p.1 p.2 = ent.name then ⟨ent, p.1, p.2, none⟩
        else
          ⟨ent, p.1, p.2,
            some (calculate_confidence ent.name (strSlice doc p.1 p.2)
              (is_in_code_block doc p.1))⟩)
    else [])

/-- All candidates of one invocation, in the order the source examines them. -/
def allCands (doc : List Char) (es : List Entity) : List Cand :=
  phase1Cands doc es ++ phase2Cands doc es ++ phase3Cands doc es

/-- The mutable state of one invocation: the mentions accepted so far and the
`matched_ranges` list consulted by the overlap check. -/
structure LState where
  mentions : List Mention
  ranges : List (Nat × Nat)
deriving DecidableEq

/-- Whether a span overlaps one of the already-claimed ranges, following
`overlaps_existing` of the source. -/
def overlaps_existing (ranges : List (Nat × Nat)) (s e : Nat) : Bool :=
  ranges.any (fun r => !(decide (e ≤ r.1) || decide (s ≥ r.2)))

/-- The mention record built for an accepted candidate. -/
def mkMention (doc : List Char) (cfg : Config) (c : Cand) (q : ℚ) : Mention :=
  { entity_id := c.ent.entity_id
    entity_name := c.ent.name
    entity_type := c.ent.entity_type
    surface_form := strSlice doc c.start c.stop
    start_offset := c.start
    end_offset := c.stop
    confidence := q
    context := extract_context doc c.start c.stop cfg.context_chars }

/-- Processing of one candidate, exactly as each phase body does: skip it if
its span overlaps a claimed range; otherwise, if the phase assigned it a
confidence at least `min_confidence`, append the mention and claim the span. -/
def step (doc : List Char) (cfg : Config) (st : LState) (c : Cand) : LState :=
  if overlaps_existing st.ranges c.start c.stop then st
  else
    match c.conf with
    | none => st
    | some q =>
      if cfg.min_confidence ≤ q then
        ⟨st.mentions ++ [mkMention doc cfg c q], st.ranges ++ [(c.start, c.stop)]⟩
      else st

/-- The state after all three phases have run. -/
def linkerRun (doc : List Char) (es : List Entity) (cfg : Config) : LState :=
  (allCands doc es).foldl (step doc cfg) ⟨[], []⟩

/-- Stable insertion of a mention behind every mention with a start offset not
exceeding its own. -/
def insertMention (m : Mention) : List Mention → List Mention
  | [] => [m]
  | n :: ns => if n.start_offset ≤ m.start_offset then n :: insertMention m ns else m :: n :: ns

/-- Stable sort by start offset, modelling the final `mentions.sort(key=...)`. -/
def sortMentions (l : List Mention) : List Mention :=
  l.foldl (fun acc m => insertMention m acc) []

/-- Scan document text for references to known code entities, following
`extract_entity_mentions` of the source: run the three phases in order over the
shared overlap state, then sort the accepted mentions by start offset. -/
def extract_entity_mentions (doc_text : List Char) (entity_list : List Entity)
    (config : Config) : List Mention :=
  sortMentions (linkerRun doc_text entity_list config).mentions

/-- Well-formedness of a candidate span: non-empty and inside the document. -/
def CandOk (doc : List Char) (c : Cand) : Prop :=
  c.start < c.stop ∧ c.stop ≤ doc.length

/-- The span claimed by a mention. -/
def mentionSpan (m : Mention) : Nat × Nat := (m.start_offset, m.end_offset)

/-- Two mentions with non-intersecting half-open character ranges. -/
def MentionsDisjoint (a b : Mention) : Prop :=
  a.end_offset ≤ b.start_offset ∨ b.end_offset ≤ a.start_offset

/-- The invariant the source maintains between `mentions` and `matched_ranges`:
the ranges list holds exactly the spans of the accepted mentions, and those
spans are pairwise disjoint. -/
def GoodState (st : LState) : Prop :=
  st.ranges = st.mentions.map mentionSpan ∧ st.mentions.Pairwise MentionsDisjoint

/-- The entity of acceptance scenario 4: a basket-module Keeper with the alias
"basket keeper". -/
def basketEntity : Entity :=
  ⟨"keeper:basket".data, "Keeper".data, "Keeper".data, "basket".data, ["basket keeper".data]⟩

/-- The document of acceptance scenario 4. -/
def basketDoc : List Char := "The basket keeper manages state.".data

/-- The single mention the linker produces on `basketDoc` under the default
configuration. -/
def basketMention : Mention :=
  ⟨"keeper:basket".data, "Keeper".data, "Keeper".data, "basket keeper".data, 4, 17,
    mkRat 8 10, "The basket keeper manages state.".data⟩

/-- The single mention the linker produces on `basketDoc` when
`min_confidence = 0.9`: the Phase 3 case-insensitive name match, on a span that
overlaps the rejected Phase 1 candidate. -/
def lowKeeperMention : Mention :=
  ⟨"keeper:basket".data, "Keeper".data, "Keeper".data, "keeper".data, 11, 17,
    mkRat 9 10, "The basket keeper manages state.".data⟩

/-- A Msg entity whose name appears lower-cased between backticks in `codeDoc`. -/
def msgEntity : Entity :=
  ⟨"msg:MsgCreateBatch".data, "Msg".data, "MsgCreateBatch".data, "base".data, []⟩

/-- A document whose first backtick is escaped by a backslash: the characters
are backslash, backtick, space, "msgcreatebatch", space, backtick. -/
def codeDoc : List Char := "\\` msgcreatebatch `".data

/-- The Phase 3 candidate the linker builds for `msgEntity` on `codeDoc`. -/
def codeCand : Cand := ⟨msgEntity, 3, 17, some 1⟩

/-- An entity whose name has length 3 but which carries a longer alias. -/
def shortNameEntity : Entity :=
  ⟨"msg:Msg".data, "Msg".data, "Msg".data, "m".data, ["MsgAlias".data]⟩

/-- A document containing both the alias and the short name of `shortNameEntity`. -/
def shortNameDoc : List Char := "MsgAlias and Msg.".data

/-- A Keeper-type entity with a non-empty module whose name occurs nowhere in
the keeper-casing documents below. -/
def keeperXEntity : Entity :=
  ⟨"keeper:basket".data, "Keeper".data, "KeeperX".data, "basket".data, []⟩

/-- A document writing the keeper word in full upper case after the module. -/
def upperKeeperDoc : List Char := "basket KEEPER".data

/-- Modelled from the spec: the inline-code test as the spec words it, counting
only unescaped backticks (a backtick whose immediately preceding character is
not a backslash) before the position, and requiring a backtick after it.  The
source's `_is_in_code_block` has no escape handling; this definition exists to
compare the spec's wording with the code. -/
def is_in_code_block_spec (doc : List Char) (position : Nat) : Bool :=
  (((List.range position).filter (fun j =>
      doc.get? j == some backtickChar &&
        (decide (j = 0) || !(doc.get? (j - 1) == some '\\')))).length) % 2 == 1 &&
    (doc.drop position).contains backtickChar

/-- Well-formedness of a returned mention: a non-empty span inside the
document whose text is exactly the claimed surface form. -/
def MentionOk (doc : List Char) (m : Mention) : Prop :=
  m.start_offset < m.end_offset ∧ m.end_offset ≤ doc.length ∧
    m.surface_form = strSlice doc m.start_offset m.end_offset

theorem litMatchAt_spec {doc : List Char} {i : Nat} {s : List Char} {ci : Bool}
    (h : litMatchAt doc i s ci = true) :
    i + s.length ≤ doc.length ∧
      (ci = false → strSlice doc i (i + s.length) = s) ∧
      (ci = true → lowerStr (strSlice doc i (i + s.length)) = lowerStr s) := by
  unfold litMatchAt at h
  cases ci <;>
    simp only [Bool.and_eq_true, decide_eq_true_eq, beq_iff_eq, if_true, if_false,
      Bool.false_eq_true, Bool.true_eq_false, ite_true, ite_false] at h
  · exact ⟨h.1.1.1, fun _ => h.1.1.2, by simp⟩
  · exact ⟨h.1.1.1, by simp, fun _ => h.1.1.2⟩

theorem matchAt_lit {doc : List Char} {i : Nat} {s : List Char} {ci : Bool} {e : Nat}
    (h : matchAt doc i (Pat.lit s ci) = some e) :
    e = i + s.length ∧ i + s.length ≤ doc.length ∧
      (ci = false → strSlice doc i e = s) ∧
      (ci = true → lowerStr (strSlice doc i e) = lowerStr s) := by
  simp only [matchAt] at h
  split at h
  · next hb =>
      obtain ⟨h1, h2, h3⟩ := litMatchAt_spec hb
      obtain rfl : i + s.length = e := Option.some.inj h
      exact ⟨rfl, h1, h2, h3⟩
  · exact absurd h (by simp)

theorem strSlice_cons {doc : List Char} {p : Nat} {c : Char}
    (hc : doc.get? p = some c) (n : Nat) :
    strSlice doc p (p + (n + 1)) = c :: strSlice doc (p + 1) (p + (n + 1)) := by
  rcases List.get?_eq_some.mp hc with ⟨hlt, hget⟩
  unfold strSlice
  rw [List.drop_eq_getElem_cons hlt]
  have h1 : p + (n + 1) - p = n + 1 := by omega
  have h2 : p + (n + 1) - (p + 1) = n := by omega
  rw [h1, h2, List.take_succ_cons]
  simp [← hget]

theorem matchAt_modKeeper {doc m : List Char} {i e : Nat}
    (h : matchAt doc i (Pat.modKeeper m) = some e) :
    i < e ∧ e ≤ doc.length ∧ 6 ≤ e ∧
      (strSlice doc (e - 6) e = 'K' :: ['e', 'e', 'p', 'e', 'r'] ∨
       strSlice doc (e - 6) e = 'k' :: ['e', 'e', 'p', 'e', 'r']) := by
  simp only [matchAt] at h
  split at h
  · split at h
    · next hkeep =>
        obtain rfl : i + m.length + wsRun doc (i + m.length) + 6 = e := Option.some.inj h
        set k := wsRun doc (i + m.length) with hk
        set p := i + m.length + k with hp
        simp only [Bool.and_eq_true, decide_eq_true_eq, beq_iff_eq] at hkeep
        obtain ⟨hk1, hat⟩ := hkeep
        unfold keeperAt at hat
        simp only [Bool.and_eq_true, decide_eq_true_eq, beq_iff_eq] at hat
        obtain ⟨⟨⟨hlen, hkk⟩, heep⟩, _⟩ := hat
        refine ⟨by omega, by omega, by omega, ?_⟩
        have hsub : p + 6 - 6 = p := by omega
        rw [hsub]
        cases hget : doc.get? p with
        | none => rw [hget] at hkk; exact absurd hkk (by simp)
        | some c =>
          rw [hget] at hkk
          have hcons := strSlice_cons hget 5
          have heq : p + (5 + 1) = p + 6 := by omega
          rw [heq] at hcons
          have heep' : strSlice doc (p + 1) (p + 6) = ['e', 'e', 'p', 'e', 'r'] := heep
          rw [hcons, heep']
          unfold isKk at hkk
          simp only [Bool.or_eq_true, beq_iff_eq] at hkk
          rcases hkk with rfl | rfl
          · exact Or.inl rfl
          · exact Or.inr rfl
    · exact absurd h (by simp)
  · exact absurd h (by simp)

theorem findIterGo_sound {doc : List Char} {pat : Pat} :
    ∀ {fuel i : Nat} {p : Nat × Nat}, p ∈ findIterGo doc pat fuel i →
      matchAt doc p.1 pat = some p.2 := by
  intro fuel
  induction fuel with
  | zero => intro i p h; simp [findIterGo] at h
  | succ n ih =>
    intro i p h
    unfold findIterGo at h
    split at h
    · split at h
      case h_1 e heq =>
        rcases List.mem_cons.mp h with rfl | h1
        · exact heq
        · exact ih h1
      case h_2 => exact ih h
    · exact absurd h (by simp)

theorem findIter_sound {doc : List Char} {pat : Pat} {p : Nat × Nat}
    (h : p ∈ findIter doc pat) : matchAt doc p.1 pat = some p.2 :=
  findIterGo_sound h

theorem mem_phase1Cands {doc : List Char} {es : List Entity} {c : Cand}
    (h : c ∈ phase1Cands doc es) :
    (∃ ent s e, ent ∈ es ∧ matchAt doc s (Pat.modKeeper ent.module) = some e ∧
      c = ⟨ent, s, e, some (mkRat 8 10)⟩) ∨
    (∃ ent al s e, ent ∈ es ∧ al ∈ ent.aliases ∧ 3 < al.length ∧
      matchAt doc s (Pat.lit al true) = some e ∧ c = ⟨ent, s, e, some (mkRat 8 10)⟩) := by
  rcases List.mem_flatMap.mp h with ⟨ent, hent, hc⟩
  rcases List.mem_append.mp hc with hk | ha
  · left
    unfold keeperCandsOf at hk
    split at hk
    · rcases List.mem_map.mp hk with ⟨p, hp, rfl⟩
      exact ⟨ent, p.1, p.2, hent, findIter_sound hp, rfl⟩
    · exact absurd hk (by simp)
  · right
    unfold aliasCandsOf at ha
    rcases List.mem_flatMap.mp ha with ⟨al, hal, hmem⟩
    rcases List.mem_filter.mp hal with ⟨hal', hlen⟩
    rcases List.mem_map.mp hmem with ⟨p, hp, rfl⟩
    exact ⟨ent, al, p.1, p.2, hent, hal', by simpa using hlen, findIter_sound hp, rfl⟩

theorem mem_phase2Cands {doc : List Char} {es : List Entity} {c : Cand}
    (h : c ∈ phase2Cands doc es) :
    ∃ ent s e, ent ∈ es ∧ 3 < ent.name.length ∧
      matchAt doc s (Pat.lit ent.name false) = some e ∧
      c = ⟨ent, s, e, some (calculate_confidence ent.name (strSlice doc s e)
        (is_in_code_block doc s))⟩ := by
  rcases List.mem_flatMap.mp h with ⟨ent, hent, hc⟩
  split at hc
  · rcases List.mem_map.mp hc with ⟨p, hp, rfl⟩
    exact ⟨ent, p.1, p.2, hent, by assumption, findIter_sound hp, rfl⟩
  · exact absurd hc (by simp)

theorem mem_phase3Cands {doc : List Char} {es : List Entity} {c : Cand}
    (h : c ∈ phase3Cands doc es) :
    ∃ ent s e, ent ∈ es ∧ 3 < ent.name.length ∧
      matchAt doc s (Pat.lit ent.name true) = some e ∧
      ((strSlice doc s e = ent.name ∧ c = ⟨ent, s, e, none⟩) ∨
       (strSlice doc s e ≠ ent.name ∧
        c = ⟨ent, s, e, some (calculate_confidence ent.name (strSlice doc s e)
          (is_in_code_block doc s))⟩)) := by
  rcases List.mem_flatMap.mp h with ⟨ent, hent, hc⟩
  split at hc
  · rcases List.mem_map.mp hc with ⟨p, hp, hpc⟩
    refine ⟨ent, p.1, p.2, hent, by assumption, findIter_sound hp, ?_⟩
    by_cases hss : strSlice doc p.1 p.2 = ent.name
    · rw [if_pos hss] at hpc
      exact Or.inl ⟨hss, hpc.symm⟩
    · rw [if_neg hss] at hpc
      exact Or.inr ⟨hss, hpc.symm⟩
  · exact absurd hc (by simp)

theorem allCands_ok {doc : List Char} {es : List Entity} {c : Cand}
    (h : c ∈ allCands doc es) : CandOk doc c := by
  rcases List.mem_append.mp h with h12 | h3
  · rcases List.mem_append.mp h12 with h1 | h2
    · rcases mem_phase1Cands h1 with ⟨ent, s, e, _, hm, rfl⟩ | ⟨ent, al, s, e, _, _, hlen, hm, rfl⟩
      · obtain ⟨h1', h2', _⟩ := matchAt_modKeeper hm
        exact ⟨h1', h2'⟩
      · obtain ⟨rfl, hle, _⟩ := matchAt_lit hm
        exact ⟨Nat.lt_add_of_pos_right (by omega), hle⟩
    · rcases mem_phase2Cands h2 with ⟨ent, s, e, _, hlen, hm, rfl⟩
      obtain ⟨rfl, hle, _⟩ := matchAt_lit hm
      exact ⟨Nat.lt_add_of_pos_right (by omega), hle⟩
  · rcases mem_phase3Cands h3 with ⟨ent, s, e, _, hlen, hm, hor⟩
    obtain ⟨rfl, hle, _⟩ := matchAt_lit hm
    rcases hor with ⟨_, rfl⟩ | ⟨_, rfl⟩ <;>
      exact ⟨Nat.lt_add_of_pos_right (by omega), hle⟩

theorem calc_conf_ci {name matched : List Char} {b : Bool}
    (hne : matched ≠ name) (hlow : lowerStr matched = lowerStr name) :
    calculate_confidence name matched b = if b then 1 else mkRat 9 10 := by
  unfold calculate_confidence
  rw [if_neg hne, if_pos hlow]

theorem calc_conf_exact (name : List Char) (b : Bool) :
    calculate_confidence name name b = 1 := by
  simp [calculate_confidence]

theorem allCands_conf {doc : List Char} {es : List Entity} {c : Cand} {q : ℚ}
    (h : c ∈ allCands doc es) (hq : c.conf = some q) :
    q = mkRat 8 10 ∨ q = mkRat 9 10 ∨ q = 1 := by
  rcases List.mem_append.mp h with h12 | h3
  · rcases List.mem_append.mp h12 with h1 | h2
    · rcases mem_phase1Cands h1 with ⟨ent, s, e, _, hm, rfl⟩ | ⟨ent, al, s, e, _, _, _, hm, rfl⟩ <;>
        exact Or.inl (Option.some.inj hq).symm
    · rcases mem_phase2Cands h2 with ⟨ent, s, e, _, hlen, hm, rfl⟩
      obtain ⟨rfl, hle, hslice, _⟩ := matchAt_lit hm
      rw [hslice rfl, calc_conf_exact] at hq
      exact Or.inr (Or.inr (Option.some.inj hq).symm)
  · rcases mem_phase3Cands h3 with ⟨ent, s, e, _, hlen, hm, hor⟩
    obtain ⟨rfl, hle, _, hlow⟩ := matchAt_lit hm
    rcases hor with ⟨_, rfl⟩ | ⟨hne, rfl⟩
    · exact absurd hq (by simp)
    · rw [calc_conf_ci hne (hlow rfl)] at hq
      by_cases hb : is_in_code_block doc s = true
      · rw [if_pos hb] at hq
        exact Or.inr (Or.inr (Option.some.inj hq).symm)
      · rw [if_neg hb] at hq
        exact Or.inr (Or.inl (Option.some.inj hq).symm)

theorem overlaps_existing_false {ranges : List (Nat × Nat)} {s e : Nat}
    (h : overlaps_existing ranges s e = false) :
    ∀ r ∈ ranges, e ≤ r.1 ∨ r.2 ≤ s := by
  intro r hr
  have h2 := List.any_eq_false.mp h r hr
  rcases le_or_lt e r.1 with hle | hlt
  · exact Or.inl hle
  · rcases le_or_lt r.2 s with hle2 | hlt2
    · exact Or.inr hle2
    · exfalso
      apply h2
      show (!(decide (e ≤ r.1) || decide (s ≥ r.2))) = true
      have d1 : decide (e ≤ r.1) = false := decide_eq_false (by omega)
      have d2 : decide (s ≥ r.2) = false := decide_eq_false (by omega)
      rw [d1, d2]
      rfl

theorem step_good {doc : List Char} {cfg : Config} {st : LState} {c : Cand}
    (hst : GoodState st) : GoodState (step doc cfg st c) := by
  unfold step
  split
  · exact hst
  · next hov =>
    split
    case h_1 => exact hst
    case h_2 q hc =>
      split
      · next hmin =>
        obtain ⟨hr, hp⟩ := hst
        have hov' : overlaps_existing st.ranges c.start c.stop = false :=
          Bool.of_not_eq_true hov
        constructor
        · simp [hr, mkMention, mentionSpan]
        · rw [List.pairwise_append]
          refine ⟨hp, by simp, ?_⟩
          intro a ha b hb
          rcases List.mem_singleton.mp hb with rfl
          have hspan : mentionSpan a ∈ st.ranges := by
            rw [hr]; exact List.mem_map_of_mem _ ha
          rcases overlaps_existing_false hov' (mentionSpan a) hspan with h1 | h1
          · exact Or.inr h1
          · exact Or.inl h1
      · exact hst

theorem foldl_step_good {doc : List Char} {cfg : Config} :
    ∀ (cands : List Cand) (st : LState),
      GoodState st → GoodState (cands.foldl (step doc cfg) st)
  | [], _, h => h
  | c :: cs, st, h => foldl_step_good cs (step doc cfg st c) (step_good h)

theorem foldl_step_pres {doc : List Char} {cfg : Config} (P : Mention → Prop) :
    ∀ (cands : List Cand) (st : LState),
      (∀ m ∈ st.mentions, P m) →
      (∀ c ∈ cands, ∀ q, c.conf = some q → cfg.min_confidence ≤ q →
        P (mkMention doc cfg c q)) →
      ∀ m ∈ (cands.foldl (step doc cfg) st).mentions, P m := by
  intro cands
  induction cands with
  | nil => intro st hst _ m hm; exact hst m hm
  | cons c cs ih =>
    intro st hst hc m hm
    refine ih (step doc cfg st c) ?_ (fun c' hc' => hc c' (List.mem_cons_of_mem _ hc')) m hm
    intro m' hm'
    unfold step at hm'
    split at hm'
    · exact hst m' hm'
    · split at hm'
      case h_1 => exact hst m' hm'
      case h_2 q heq =>
        split at hm'
        · next hmin =>
            rcases List.mem_append.mp hm' with h | h
            · exact hst m' h
            · rcases List.mem_singleton.mp h with rfl
              exact hc c (List.mem_cons_self c cs) q heq hmin
        · exact hst m' hm'

theorem insertMention_perm (m : Mention) :
    ∀ l : List Mention, (insertMention m l).Perm (m :: l)
  | [] => List.Perm.refl _
  | n :: ns => by
    unfold insertMention
    split
    · exact ((insertMention_perm m ns).cons n).trans (List.Perm.swap m n ns)
    · exact List.Perm.refl _

theorem sortMentions_perm (l : List Mention) : (sortMentions l).Perm l := by
  have key : ∀ (l acc : List Mention),
      (l.foldl (fun a m => insertMention m a) acc).Perm (acc ++ l) := by
    intro l
    induction l with
    | nil => intro acc; simp
    | cons m ms ih =>
      intro acc
      refine (ih (insertMention m acc)).trans ?_
      refine ((insertMention_perm m acc).append_right ms).trans ?_
      exact List.perm_middle.symm
  simpa using key l []

theorem mem_sortMentions {m : Mention} {l : List Mention} :
    m ∈ sortMentions l ↔ m ∈ l :=
  (sortMentions_perm l).mem_iff

/-- Claim C1: for every document text, entity catalog and configuration, the
mention list returned by `extract_entity_mentions` is pairwise non-overlapping:
no two returned mentions have character ranges `[start_offset, end_offset)`
that intersect. -/
theorem C1_mentions_pairwise_disjoint (doc : List Char) (es : List Entity) (cfg : Config) :
    (extract_entity_mentions doc es cfg).Pairwise MentionsDisjoint := by
  have hg : GoodState (linkerRun doc es cfg) :=
    foldl_step_good (allCands doc es) ⟨[], []⟩ ⟨rfl, List.Pairwise.nil⟩
  have hsym : ∀ {x y : Mention}, MentionsDisjoint x y → MentionsDisjoint y x :=
    fun h => Or.symm h
  exact ((sortMentions_perm (linkerRun doc es cfg).mentions).pairwise_iff hsym).mpr hg.2

/-- Claim C2, counterexample: the result with `min_confidence = 0.9` is not the
confidence-filtered result of the `min_confidence = 0` run, because the
below-threshold Phase 1 candidate claims no span and a later overlapping
Phase 3 candidate is then accepted. -/
theorem C2_counterexample :
    extract_entity_mentions basketDoc [basketEntity] ⟨mkRat 9 10, 50⟩ ≠
      (extract_entity_mentions basketDoc [basketEntity] ⟨0, 50⟩).filter
        (fun m => decide (mkRat 9 10 ≤ m.confidence)) := by decide

/-- Claim C2, amended: every returned mention has confidence at least
`min_confidence`; the threshold is not a pure output filter, since a rejected
candidate claims no span in the overlap arbiter. -/
theorem C2_amended_threshold_bound (doc : List Char) (es : List Entity) (cfg : Config)
    (m : Mention) (hm : m ∈ extract_entity_mentions doc es cfg) :
    cfg.min_confidence ≤ m.confidence := by
  have hm' := mem_sortMentions.mp hm
  exact foldl_step_pres (fun m => cfg.min_confidence ≤ m.confidence)
    (allCands doc es) ⟨[], []⟩ (by simp) (fun c hc q hq hmin => hmin) m hm'

theorem C2_amended_witness :
    (mkRat 9 10 : ℚ) ≤ lowKeeperMention.confidence :=
  C2_amended_threshold_bound basketDoc [basketEntity] ⟨mkRat 9 10, 50⟩
    lowKeeperMention (by decide)

/-- Claim C3: every returned mention has `0 ≤ start_offset < end_offset ≤
length(document)` (the lower bound is inherent to `Nat`), and the document text
on `[start_offset, end_offset)` is exactly the surface form — in particular it
equals it up to case-folding for case-insensitive matches. -/
theorem C3_span_and_surface (doc : List Char) (es : List Entity) (cfg : Config)
    (m : Mention) (hm : m ∈ extract_entity_mentions doc es cfg) :
    m.start_offset < m.end_offset ∧ m.end_offset ≤ doc.length ∧
      m.surface_form = strSlice doc m.start_offset m.end_offset := by
  have hm' := mem_sortMentions.mp hm
  refine foldl_step_pres (MentionOk doc) (allCands doc es) ⟨[], []⟩ (by simp) ?_ m hm'
  intro c hc q hq hmin
  obtain ⟨h1, h2⟩ := allCands_ok hc
  exact ⟨h1, h2, rfl⟩

theorem C3_witness :
    basketMention.start_offset < basketMention.end_offset ∧
      basketMention.end_offset ≤ basketDoc.length ∧
      basketMention.surface_form =
        strSlice basketDoc basketMention.start_offset basketMention.end_offset :=
  C3_span_and_surface basketDoc [basketEntity] defaultConfig basketMention (by decide)

/-- Claim C4: on the scenario-4 catalog and document, the linker returns
exactly one mention, at `start_offset = 4` with confidence 0.8; the
name-matching phases add no duplicate because the overlap arbiter suppresses
the overlapping Phase 3 match. -/
theorem C4_basket_scenario :
    (extract_entity_mentions basketDoc [basketEntity] defaultConfig).map
      (fun m => (m.start_offset, m.confidence)) = [(4, mkRat 8 10)] := by decide

/-- Claim C5, counterexample: `extract_entity_mentions` does not reject invalid
configurations.  With `min_confidence = 2` it silently returns an empty list,
with `min_confidence = -1` and with `context_chars = -100` it silently returns
a normal one-mention list. -/
theorem C5_counterexample :
    extract_entity_mentions basketDoc [basketEntity] ⟨2, 50⟩ = [] ∧
      (extract_entity_mentions basketDoc [basketEntity] ⟨-1, 50⟩).length = 1 ∧
      (extract_entity_mentions basketDoc [basketEntity] ⟨0, -100⟩).length = 1 := by decide

/-- Claim C5, amended: the function performs no configuration validation and
never fails; out-of-range values are used as supplied.  In particular every
call with `min_confidence > 1` returns the empty mention list, because every
candidate confidence is at most 1. -/
theorem C5_amended_no_validation (doc : List Char) (es : List Entity)
    (cc : Int) (q : ℚ) (hq : 1 < q) :
    extract_entity_mentions doc es ⟨q, cc⟩ = [] := by
  have hnone : ∀ m ∈ (linkerRun doc es ⟨q, cc⟩).mentions, False := by
    refine foldl_step_pres (fun _ => False) (allCands doc es) ⟨[], []⟩ (by simp) ?_
    intro c hc q' hq' hmin
    have hle : q' ≤ 1 := by
      rcases allCands_conf hc hq' with h | h | h <;> rw [h] <;> decide
    exact absurd hq (not_lt.mpr (hmin.trans hle))
  have hnil : (linkerRun doc es ⟨q, cc⟩).mentions = [] :=
    List.eq_nil_iff_forall_not_mem.mpr (fun m hm => hnone m hm)
  unfold extract_entity_mentions
  rw [hnil]
  rfl

theorem C5_amended_witness :
    (1 : ℚ) < 2 ∧ extract_entity_mentions basketDoc [basketEntity] ⟨2, 50⟩ = [] :=
  ⟨by decide, C5_amended_no_validation basketDoc [basketEntity] 50 2 (by decide)⟩

/-- Claim C6, counterexample: on `codeDoc` the first backtick is escaped, so
under the spec's unescaped-backtick criterion the match at offset 3 is not
inside inline code and should score 0.9; the code counts all backticks and
returns confidence 1.0 for this case-insensitive, non-exact name match. -/
theorem C6_counterexample :
    (extract_entity_mentions codeDoc [msgEntity] defaultConfig).map
      (fun m => (m.start_offset, m.end_offset, m.confidence)) = [(3, 17, 1)] ∧
      is_in_code_block_spec codeDoc 3 = false ∧
      strSlice codeDoc 3 17 ≠ msgEntity.name ∧
      lowerStr (strSlice codeDoc 3 17) = lowerStr msgEntity.name := by decide

/-- Claim C6, amended: a Phase 2 match is always byte-for-byte equal to the
canonical name, and every scored Phase 3 candidate — matched text equal to the
name case-insensitively but not exactly — gets confidence 1.0 when
`_is_in_code_block` holds at its start (an odd count of all backticks before
the position, escaped or not, and some backtick after it) and 0.9 otherwise. -/
theorem C6_amended_code_block_confidence :
    (∀ (doc : List Char) (es : List Entity) (c : Cand), c ∈ phase2Cands doc es →
      strSlice doc c.start c.stop = c.ent.name) ∧
    (∀ (doc : List Char) (es : List Entity) (c : Cand) (q : ℚ), c ∈ phase3Cands doc es →
      c.conf = some q → q = if is_in_code_block doc c.start then 1 else mkRat 9 10) := by
  constructor
  · intro doc es c hc
    rcases mem_phase2Cands hc with ⟨ent, s, e, _, _, hm, rfl⟩
    exact (matchAt_lit hm).2.2.1 rfl
  · intro doc es c q hc hq
    rcases mem_phase3Cands hc with ⟨ent, s, e, _, _, hm, hor⟩
    rcases hor with ⟨_, rfl⟩ | ⟨hne, rfl⟩
    · exact absurd hq (by simp)
    · rw [calc_conf_ci hne ((matchAt_lit hm).2.2.2 rfl)] at hq
      exact (Option.some.inj hq).symm

theorem C6_amended_witness :
    (1 : ℚ) = if is_in_code_block codeDoc 3 then 1 else mkRat 9 10 :=
  C6_amended_code_block_confidence.2 codeDoc [msgEntity] codeCand 1 (by decide) rfl

/-- Claim C7: every returned mention either originates in Phase 1 (the
contextual and alias patterns) or names an entity whose name is longer than
three characters, so an entity with a name of length at most 3 gets no mention
from name matching (Phases 2 and 3) — and this is no error: its aliases longer
than three characters still produce mentions, as the concrete catalog with name
"Msg" and alias "MsgAlias" shows. -/
theorem C7_short_names_only_phase1 :
    (∀ (doc : List Char) (es : List Entity) (cfg : Config) (m : Mention),
      m ∈ extract_entity_mentions doc es cfg →
      m ∈ ((phase1Cands doc es).foldl (step doc cfg) ⟨[], []⟩).mentions ∨
        3 < m.entity_name.length) ∧
    (extract_entity_mentions shortNameDoc [shortNameEntity] defaultConfig).map
      (fun m => (m.entity_name, m.surface_form, m.start_offset, m.confidence)) =
      [("Msg".data, "MsgAlias".data, 0, mkRat 8 10)] := by
  constructor
  · intro doc es cfg m hm
    have hm' := mem_sortMentions.mp hm
    have heq : linkerRun doc es cfg =
        (phase2Cands doc es ++ phase3Cands doc es).foldl (step doc cfg)
          ((phase1Cands doc es).foldl (step doc cfg) ⟨[], []⟩) := by
      unfold linkerRun allCands
      rw [List.append_assoc, List.foldl_append]
    rw [heq] at hm'
    refine foldl_step_pres
      (fun m => m ∈ ((phase1Cands doc es).foldl (step doc cfg) ⟨[], []⟩).mentions ∨
        3 < m.entity_name.length)
      (phase2Cands doc es ++ phase3Cands doc es) _ (fun m hm => Or.inl hm) ?_ m hm'
    intro c hc q hq hmin
    right
    rcases List.mem_append.mp hc with h2 | h3
    · rcases mem_phase2Cands h2 with ⟨ent, s, e, _, hlen, _, rfl⟩
      exact hlen
    · rcases mem_phase3Cands h3 with ⟨ent, s, e, _, hlen, _, hor⟩
      rcases hor with ⟨_, rfl⟩ | ⟨_, rfl⟩ <;> exact hlen
  · decide

theorem C7_witness :
    lowKeeperMention ∈
        ((phase1Cands basketDoc [basketEntity]).foldl
          (step basketDoc ⟨mkRat 9 10, 50⟩) ⟨[], []⟩).mentions ∨
      3 < lowKeeperMention.entity_name.length :=
  C7_short_names_only_phase1.1 basketDoc [basketEntity] ⟨mkRat 9 10, 50⟩
    lowKeeperMention (by decide)

/-- Claim C8, counterexample: the keeper word is matched by the character class
`[Kk]` followed by the literal "eeper", so "basket KEEPER" — the word "keeper"
in a casing other than "keeper"/"Keeper", after a Keeper-type entity's
non-empty module at word boundaries — yields no mention at all, while
"basket Keeper" yields the contextual mention with confidence 0.8. -/
theorem C8_counterexample :
    extract_entity_mentions upperKeeperDoc [keeperXEntity] defaultConfig = [] ∧
      keeperXEntity.entity_type = "Keeper".data ∧ keeperXEntity.module ≠ [] ∧
      (extract_entity_mentions "basket Keeper".data [keeperXEntity] defaultConfig).map
        (fun m => (m.start_offset, m.end_offset, m.confidence)) =
        [(0, 13, mkRat 8 10)] := by decide

/-- Claim C8, amended: the contextual pattern for a Keeper-type entity with a
non-empty module matches the module text case-sensitively followed by
whitespace and the word "keeper" or "Keeper" — only the initial letter of
"keeper" is case-insensitive — and every keeper-pattern candidate carries base
confidence 0.8. -/
theorem C8_amended_keeper_casing :
    (∀ (doc mo : List Char) (i e : Nat), matchAt doc i (Pat.modKeeper mo) = some e →
      strSlice doc (e - 6) e = "Keeper".data ∨ strSlice doc (e - 6) e = "keeper".data) ∧
    (∀ (doc : List Char) (ent : Entity) (c : Cand), c ∈ keeperCandsOf doc ent →
      c.conf = some (mkRat 8 10)) := by
  constructor
  · intro doc mo i e h
    exact (matchAt_modKeeper h).2.2.2
  · intro doc ent c hc
    unfold keeperCandsOf at hc
    split at hc
    · rcases List.mem_map.mp hc with ⟨p, _, rfl⟩
      rfl
    · exact absurd hc (by simp)

theorem C8_amended_witness :
    strSlice basketDoc 11 17 = "Keeper".data ∨ strSlice basketDoc 11 17 = "keeper".data :=
  C8_amended_keeper_casing.1 basketDoc "basket".data 4 17 (by decide)

/-- Claim C9: the partial-match confidence value 0.7 is unreachable from
`extract_entity_mentions`: every returned mention's confidence is 0.8, 0.9 or
1.0, and in particular never 0.7. -/
theorem C9_confidence_values (doc : List Char) (es : List Entity) (cfg : Config)
    (m : Mention) (hm : m ∈ extract_entity_mentions doc es cfg) :
    (m.confidence = mkRat 8 10 ∨ m.confidence = mkRat 9 10 ∨ m.confidence = 1) ∧
      m.confidence ≠ mkRat 7 10 := by
  have hm' := mem_sortMentions.mp hm
  have h := foldl_step_pres
    (fun m => m.confidence = mkRat 8 10 ∨ m.confidence = mkRat 9 10 ∨ m.confidence = 1)
    (allCands doc es) ⟨[], []⟩ (by simp)
    (fun c hc q hq hmin => allCands_conf hc hq) m hm'
  refine ⟨h, ?_⟩
  rcases h with h | h | h <;> rw [h] <;> decide

theorem C9_witness :
    (basketMention.confidence = mkRat 8 10 ∨ basketMention.confidence = mkRat 9 10 ∨
      basketMention.confidence = 1) ∧ basketMention.confidence ≠ mkRat 7 10 :=
  C9_confidence_values basketDoc [basketEntity] defaultConfig basketMention (by decide)

/-- Claim C10: throughout one invocation the range list consulted by the
overlap check holds exactly the spans of the mentions accepted so far — in
particular at the end of the run — and a candidate rejected by the confidence
threshold claims no span: on `basketDoc` with threshold 0.9 the rejected
Phase 1 candidate's span `(4, 17)` is later claimed by the overlapping Phase 3
match `(11, 17)`, which the threshold-0 run suppresses. -/
theorem C10_ranges_track_mentions :
    (∀ (doc : List Char) (es : List Entity) (cfg : Config),
      (linkerRun doc es cfg).ranges = (linkerRun doc es cfg).mentions.map mentionSpan) ∧
      (extract_entity_mentions basketDoc [basketEntity] ⟨mkRat 9 10, 50⟩).map mentionSpan
        = [(11, 17)] ∧
      (extract_entity_mentions basketDoc [basketEntity] ⟨0, 50⟩).map mentionSpan
        = [(4, 17)] :=
  ⟨fun doc es cfg =>
    (foldl_step_good (allCands doc es) ⟨[], []⟩ ⟨rfl, List.Pairwise.nil⟩).1,
    by decide, by decide⟩
